import Mathlib

/-!
Verification of the qfm directory browser (src/main.rs) against its
natural-language specification.

The development shallowly embeds the three algorithmic cores of the program:

* the greedy case-insensitive subsequence matcher with highlight parts
  (the per-entry loop of `MyApp::update`, src/main.rs:158-179);
* the directory-listing pipeline: metadata filtering, recency keys and the
  stable descending sort (src/main.rs:121-139);
* the navigation state machine: `push_dir`, the Alt+Arrow history
  restore operations, and the per-frame selection clamp
  (src/main.rs:63-72 and 96-233).

Rust machine integers: `selected` is an `i32` and `history_pos` a `usize`;
they are modelled as `Int` and `Nat` (none of the verified properties
exercise wrap-around; `saturating_sub` coincides with truncated `Nat`
subtraction).  Rust `String` case-folding (`to_uppercase` on one-character
strings) is modelled by `Char.toUpper`; the verified properties only use
that the comparison is the kernel of a function.
-/

namespace Qfm

/-- `enum Part` of src/main.rs:75-78.  Each variant carries the single
character that the Rust code pushes as a one-character `String`. -/
inductive Part where
  | NonMatch : Char → Part
  | Match : Char → Part
deriving DecidableEq, Repr

/-- The comparison `c.to_string().to_uppercase().cmp(&d_str.to_uppercase())
== Ordering::Equal` of src/main.rs:165-166, on the single characters the
code compares. -/
def matchChar (c d : Char) : Bool :=
  c.toUpper == d.toUpper

/-- The inner `while let Some(d) = entry_iter.next()` loop of
src/main.rs:163-173: scan the remaining name characters for one that
case-insensitively equals the filter character `c`, tagging scanned
characters `NonMatch` and the hit `Match`; `none` models falling out of
the loop with the name exhausted (`show = false`, src/main.rs:174). -/
def scanOne (c : Char) : List Char → Option (List Part × List Char)
  | [] => none
  | d :: rest =>
    if matchChar c d then
      some ([Part.Match d], rest)
    else
      match scanOne c rest with
      | some (hits, rem) => some (Part.NonMatch d :: hits, rem)
      | none => none

/-- The whole matcher for one entry: the `'outer: for c in
self.filter.chars()` loop (src/main.rs:162-175) followed, on success, by
the flush of the remaining name characters as `NonMatch`
(src/main.rs:177-179).  `none` models `show == false`: the entry is not
displayed. -/
def matchFilter : List Char → List Char → Option (List Part)
  | [], name => some (name.map Part.NonMatch)
  | c :: cs, name =>
    match scanOne c name with
    | none => none
    | some (hits, rest) =>
      match matchFilter cs rest with
      | none => none
      | some ps => some (hits ++ ps)

/-- The character stored in a `Part`, whatever its tag. -/
def partChar : Part → Char
  | Part.NonMatch c => c
  | Part.Match c => c

/-- Concatenating the characters of all parts, `Match` and `NonMatch`. -/
def partsChars (ps : List Part) : List Char :=
  ps.map partChar

/-- The characters of the `Match` parts only, in order. -/
def matchedChars : List Part → List Char
  | [] => []
  | Part.Match c :: ps => c :: matchedChars ps
  | Part.NonMatch _ :: ps => matchedChars ps

/-- The specification's notion "`f` is a case-insensitive subsequence of
`n`": the uppercased filter is a `List.Sublist` of the uppercased name. -/
def CaseSubseq (f n : List Char) : Prop :=
  List.Sublist (f.map Char.toUpper) (n.map Char.toUpper)

instance (f n : List Char) : Decidable (CaseSubseq f n) := by
  unfold CaseSubseq
  infer_instance

theorem matchedChars_append (ps qs : List Part) :
    matchedChars (ps ++ qs) = matchedChars ps ++ matchedChars qs := by
  induction ps with
  | nil => rfl
  | cons p ps ih => cases p <;> simp [matchedChars, ih]

theorem matchedChars_map_nonMatch (n : List Char) :
    matchedChars (n.map Part.NonMatch) = [] := by
  induction n with
  | nil => rfl
  | cons c cs ih => simp [matchedChars, ih]

theorem partsChars_map_nonMatch (n : List Char) :
    partsChars (n.map Part.NonMatch) = n := by
  induction n with
  | nil => rfl
  | cons c cs ih => simp [partsChars, partChar] at ih ⊢; exact ih

theorem scanOne_chars (c : Char) :
    ∀ (n : List Char) (hits : List Part) (rest : List Char),
      scanOne c n = some (hits, rest) → partsChars hits ++ rest = n := by
  intro n
  induction n with
  | nil => intro hits rest h; simp [scanOne] at h
  | cons d ds ih =>
    intro hits rest h
    by_cases hc : matchChar c d
    · simp [scanOne, hc] at h
      obtain ⟨h1, h2⟩ := h
      subst h1; subst h2
      simp [partsChars, partChar]
    · cases hs : scanOne c ds with
      | none => simp [scanOne, hc, hs] at h
      | some pr =>
        obtain ⟨hits', rest'⟩ := pr
        simp [scanOne, hc, hs] at h
        obtain ⟨h1, h2⟩ := h
        subst h1; subst h2
        have := ih hits' rest' hs
        simp [partsChars, partChar] at this ⊢
        exact this

theorem scanOne_matched (c : Char) :
    ∀ (n : List Char) (hits : List Part) (rest : List Char),
      scanOne c n = some (hits, rest) →
      ∃ d, matchedChars hits = [d] ∧ matchChar c d = true := by
  intro n
  induction n with
  | nil => intro hits rest h; simp [scanOne] at h
  | cons d ds ih =>
    intro hits rest h
    by_cases hc : matchChar c d
    · simp [scanOne, hc] at h
      obtain ⟨h1, _⟩ := h
      subst h1
      exact ⟨d, rfl, hc⟩
    · cases hs : scanOne c ds with
      | none => simp [scanOne, hc, hs] at h
      | some pr =>
        obtain ⟨hits', rest'⟩ := pr
        simp [scanOne, hc, hs] at h
        obtain ⟨h1, _⟩ := h
        subst h1
        obtain ⟨e, he, hce⟩ := ih hits' rest' hs
        exact ⟨e, by simp [matchedChars, he], hce⟩

theorem cons_sublist_cons_elim {α : Type} {a b : α} {l₁ l₂ : List α}
    (h : List.Sublist (a :: l₁) (b :: l₂)) :
    List.Sublist (a :: l₁) l₂ ∨ (a = b ∧ List.Sublist l₁ l₂) := by
  cases h with
  | cons _ h' => exact Or.inl h'
  | cons₂ _ h' => exact Or.inr ⟨rfl, h'⟩

theorem scanOne_success (c : Char) :
    ∀ (n : List Char) (ks : List Char),
      List.Sublist (c.toUpper :: ks) (n.map Char.toUpper) →
      ∃ hits rest, scanOne c n = some (hits, rest) ∧
        List.Sublist ks (rest.map Char.toUpper) := by
  intro n
  induction n with
  | nil =>
    intro ks h
    simp at h
  | cons d ds ih =>
    intro ks h
    by_cases hc : matchChar c d
    · refine ⟨[Part.Match d], ds, by simp [scanOne, hc], ?_⟩
      rcases cons_sublist_cons_elim (List.map_cons Char.toUpper d ds ▸ h) with h' | ⟨_, h'⟩
      · exact ((List.sublist_cons_self c.toUpper ks).trans h')
      · exact h'
    · have hne : c.toUpper ≠ d.toUpper := by
        intro hEq
        exact hc (by simp [matchChar, hEq])
      have h' : List.Sublist (c.toUpper :: ks) (ds.map Char.toUpper) := by
        rcases cons_sublist_cons_elim (List.map_cons Char.toUpper d ds ▸ h) with h' | ⟨hEq, _⟩
        · exact h'
        · exact absurd hEq hne
      obtain ⟨hits, rest, hs, hks⟩ := ih ks h'
      exact ⟨Part.NonMatch d :: hits, rest, by simp [scanOne, hc, hs], hks⟩

theorem matchFilter_some_of_caseSubseq :
    ∀ (f n : List Char), CaseSubseq f n → ∃ ps, matchFilter f n = some ps := by
  intro f
  induction f with
  | nil => intro n _; exact ⟨n.map Part.NonMatch, rfl⟩
  | cons c cs ih =>
    intro n h
    obtain ⟨hits, rest, hs, hks⟩ := scanOne_success c n (cs.map Char.toUpper) h
    obtain ⟨ps, hp⟩ := ih rest hks
    exact ⟨hits ++ ps, by simp [matchFilter, hs, hp]⟩

theorem matchFilter_chars :
    ∀ (f n : List Char) (ps : List Part),
      matchFilter f n = some ps → partsChars ps = n := by
  intro f
  induction f with
  | nil =>
    intro n ps h
    simp [matchFilter] at h
    subst h
    exact partsChars_map_nonMatch n
  | cons c cs ih =>
    intro n ps h
    cases hs : scanOne c n with
    | none => simp [matchFilter, hs] at h
    | some pr =>
      obtain ⟨hits, rest⟩ := pr
      cases hrec : matchFilter cs rest with
      | none => simp [matchFilter, hs, hrec] at h
      | some qs =>
        simp [matchFilter, hs, hrec] at h
        subst h
        have h1 := scanOne_chars c n hits rest hs
        have h2 := ih rest qs hrec
        calc partsChars (hits ++ qs)
            = partsChars hits ++ partsChars qs := by simp [partsChars]
          _ = partsChars hits ++ rest := by rw [h2]
          _ = n := h1

theorem matchFilter_matched :
    ∀ (f n : List Char) (ps : List Part),
      matchFilter f n = some ps →
      (matchedChars ps).map Char.toUpper = f.map Char.toUpper := by
  intro f
  induction f with
  | nil =>
    intro n ps h
    simp [matchFilter] at h
    subst h
    simp [matchedChars_map_nonMatch]
  | cons c cs ih =>
    intro n ps h
    cases hs : scanOne c n with
    | none => simp [matchFilter, hs] at h
    | some pr =>
      obtain ⟨hits, rest⟩ := pr
      cases hrec : matchFilter cs rest with
      | none => simp [matchFilter, hs, hrec] at h
      | some qs =>
        simp [matchFilter, hs, hrec] at h
        subst h
        obtain ⟨d, hd, hcd⟩ := scanOne_matched c n hits rest hs
        have hud : d.toUpper = c.toUpper := by
          have := (beq_iff_eq.mp hcd).symm
          exact this
        rw [matchedChars_append, List.map_append, hd]
        simp [hud, ih rest qs hrec]

/-! ## Lister (src/main.rs:121-139)

`read_dir` results are modelled as a list of `DirChild` values: the name,
the path, and `metadata : Option Metadata` where `none` models
`file.metadata()` returning `Err`.  Inside `Metadata`, `accessed` and
`modified` are `Option Nat` timestamps, `none` modelling an `Err` from the
respective `fs::Metadata` accessor.  Rust's `Vec::sort_by_key` is a stable
sort; any stable sort by key is extensionally unique, so it is embedded as
a stable insertion sort on (key, entry) pairs.  The `.unwrap()` on
`accessed().or_else(modified())` (src/main.rs:134-137) panics when both
timestamps are unavailable; the panic is modelled by the whole listing
evaluating to `none`. -/

/-- The fields of `fs::Metadata` that the program reads. -/
structure Metadata where
  accessed : Option Nat
  modified : Option Nat
  is_dir : Bool
deriving DecidableEq, Repr

/-- `struct Entry` of src/main.rs:23-27. -/
structure Entry where
  file_name : String
  path : String
  metadata : Metadata
deriving DecidableEq, Repr

/-- One result of `fs::read_dir`: `metadata = none` models
`file.metadata()` failing for this child. -/
structure DirChild where
  file_name : String
  path : String
  metadata : Option Metadata
deriving DecidableEq, Repr

/-- The `flat_map` of src/main.rs:124-130: children whose metadata cannot
be read are dropped, the rest become `Entry` values. -/
def listEntries (children : List DirChild) : List Entry :=
  children.filterMap fun f => f.metadata.map fun m => Entry.mk f.file_name f.path m

/-- `e.metadata.accessed().or_else(|_| e.metadata.modified())` of
src/main.rs:134-136. -/
def recencyKey (m : Metadata) : Option Nat :=
  m.accessed.orElse fun _ => m.modified

/-- The recency key with the (unreachable on the success path) default 0,
used to state sortedness over plain entries. -/
def keyD (e : Entry) : Nat :=
  (recencyKey e.metadata).getD 0

/-- Evaluate the sort key of every entry, as `sort_by_key` does; `none`
models the `.unwrap()` panic of src/main.rs:137 when some entry has
neither an access nor a modification time. -/
def keyedEntries : List Entry → Option (List (Nat × Entry))
  | [] => some []
  | e :: es =>
    match recencyKey e.metadata with
    | none => none
    | some k =>
      match keyedEntries es with
      | none => none
      | some ps => some ((k, e) :: ps)

/-- Stable insertion into a descending-by-key list: `x` goes in front of
the first element whose key is less than or equal to its own, so earlier
input elements stay in front of equal-key later ones. -/
def insertDesc (x : Nat × Entry) : List (Nat × Entry) → List (Nat × Entry)
  | [] => [x]
  | y :: ys => if y.1 ≤ x.1 then x :: y :: ys else y :: insertDesc x ys

/-- The stable descending sort: the unique function a stable
`sort_by_key(Reverse(key))` (src/main.rs:132-139) computes. -/
def sortDesc : List (Nat × Entry) → List (Nat × Entry)
  | [] => []
  | x :: xs => insertDesc x (sortDesc xs)

/-- `entries.sort_by_key(Reverse(recency))` of src/main.rs:132-139,
returning the sorted entries, or `none` on the key `.unwrap()` panic. -/
def sortEntries (entries : List Entry) : Option (List Entry) :=
  (keyedEntries entries).map fun ps => (sortDesc ps).map Prod.snd

/-- The whole listing pipeline of src/main.rs:121-139 for one successfully
read directory. -/
def listDir (children : List DirChild) : Option (List Entry) :=
  sortEntries (listEntries children)

theorem keyedEntries_spec :
    ∀ (es : List Entry) (ks : List (Nat × Entry)), keyedEntries es = some ks →
      ks.map Prod.snd = es ∧ ∀ p ∈ ks, p.1 = keyD p.2 := by
  intro es
  induction es with
  | nil =>
    intro ks h
    simp [keyedEntries] at h
    subst h
    simp
  | cons e es ih =>
    intro ks h
    cases hk : recencyKey e.metadata with
    | none => simp [keyedEntries, hk] at h
    | some k =>
      cases hrec : keyedEntries es with
      | none => simp [keyedEntries, hk, hrec] at h
      | some ps =>
        simp [keyedEntries, hk, hrec] at h
        subst h
        obtain ⟨h1, h2⟩ := ih ps hrec
        refine ⟨by simp [h1], ?_⟩
        intro p hp
        rcases List.mem_cons.mp hp with hp | hp
        · subst hp; simp [keyD, hk]
        · exact h2 p hp

theorem mem_insertDesc (x y : Nat × Entry) :
    ∀ l : List (Nat × Entry), y ∈ insertDesc x l ↔ y = x ∨ y ∈ l := by
  intro l
  induction l with
  | nil => simp [insertDesc]
  | cons z zs ih =>
    by_cases h : z.1 ≤ x.1
    · simp [insertDesc, h]
    · simp [insertDesc, h, ih]
      tauto

theorem mem_sortDesc (y : Nat × Entry) :
    ∀ l : List (Nat × Entry), y ∈ sortDesc l ↔ y ∈ l := by
  intro l
  induction l with
  | nil => simp [sortDesc]
  | cons x xs ih => simp [sortDesc, mem_insertDesc, ih]

theorem pairwise_insertDesc (x : Nat × Entry) :
    ∀ l : List (Nat × Entry),
      l.Pairwise (fun a b => b.1 ≤ a.1) →
      (insertDesc x l).Pairwise (fun a b => b.1 ≤ a.1) := by
  intro l
  induction l with
  | nil => intro _; simp [insertDesc]
  | cons y ys ih =>
    intro h
    rw [List.pairwise_cons] at h
    obtain ⟨hy, hys⟩ := h
    by_cases hle : y.1 ≤ x.1
    · rw [insertDesc, if_pos hle, List.pairwise_cons]
      refine ⟨?_, by rw [List.pairwise_cons]; exact ⟨hy, hys⟩⟩
      intro z hz
      rcases List.mem_cons.mp hz with hz | hz
      · subst hz; exact hle
      · exact le_trans (hy z hz) hle
    · rw [insertDesc, if_neg hle, List.pairwise_cons]
      refine ⟨?_, ih hys⟩
      intro z hz
      rcases (mem_insertDesc x z ys).mp hz with hz | hz
      · subst hz; omega
      · exact hy z hz

theorem sortDesc_pairwise :
    ∀ l : List (Nat × Entry), (sortDesc l).Pairwise (fun a b => b.1 ≤ a.1) := by
  intro l
  induction l with
  | nil => simp [sortDesc]
  | cons x xs ih => exact pairwise_insertDesc x (sortDesc xs) ih

theorem filter_insertDesc (k : Nat) (x : Nat × Entry) :
    ∀ l : List (Nat × Entry),
      (insertDesc x l).filter (fun p => p.1 == k) =
        (x :: l).filter (fun p => p.1 == k) := by
  intro l
  induction l with
  | nil => rfl
  | cons y ys ih =>
    by_cases hle : y.1 ≤ x.1
    · rw [insertDesc, if_pos hle]
    · rw [insertDesc, if_neg hle]
      by_cases hx : x.1 = k
      · have hy : (y.1 == k) = false := by
          simp only [beq_eq_false_iff_ne]
          omega
        simp only [List.filter_cons, hy, if_neg Bool.false_ne_true, ih]
      · have hx' : (x.1 == k) = false := by
          simp only [beq_eq_false_iff_ne]
          exact hx
        simp only [List.filter_cons, ih, hx', if_neg Bool.false_ne_true]

theorem filter_sortDesc (k : Nat) :
    ∀ l : List (Nat × Entry),
      (sortDesc l).filter (fun p => p.1 == k) = l.filter (fun p => p.1 == k) := by
  intro l
  induction l with
  | nil => rfl
  | cons x xs ih =>
    rw [sortDesc, filter_insertDesc, List.filter_cons, List.filter_cons, ih]

/-! ## Navigation state and history (src/main.rs:8-21, 48-72, 81-114, 233)

Paths are modelled as plain strings; parent resolution
(`self.dir.parent().map(canonicalize)`, src/main.rs:142-148) is an input
of the per-frame function, since it is an external filesystem query. -/

/-- `struct HistoryElement` of src/main.rs:8-13. -/
structure HistoryElement where
  dir : String
  filter : String
  selected : Int
deriving DecidableEq, Repr

/-- `struct MyApp` of src/main.rs:15-21. -/
structure MyApp where
  history : List HistoryElement
  history_pos : Nat
  filter : String
  selected : Int
  dir : String
deriving DecidableEq, Repr

/-- `MyApp::default` (src/main.rs:48-60) with the canonicalized starting
directory as input. -/
def initApp (dir : String) : MyApp :=
  MyApp.mk [] 0 "" 0 dir

/-- `MyApp::push_dir` (src/main.rs:63-72): truncate the history to the
cursor position inclusive, append a snapshot of the pre-transition state
(taking the filter, which resets it to empty), point the cursor at the
new snapshot, and move to `path`. -/
def push_dir (s : MyApp) (path : String) : MyApp :=
  let t := s.history.take (s.history_pos + 1)
  MyApp.mk (t ++ [HistoryElement.mk s.dir s.filter s.selected]) t.length "" s.selected path

/-- The Alt+ArrowLeft branch of src/main.rs:96-104: with a non-empty
history, restore the snapshot at the cursor into (dir, filter, selected),
then saturating-decrement the cursor.  The Rust indexing
`self.history[self.history_pos]` panics out of range; that index is in
range in every reachable state, and the out-of-range case is modelled as
the identity. -/
def back (s : MyApp) : MyApp :=
  if s.history.isEmpty then s
  else
    match s.history[s.history_pos]? with
    | none => s
    | some e => MyApp.mk s.history (s.history_pos - 1) e.filter e.selected e.dir

/-- The Alt+ArrowRight branch of src/main.rs:105-112: with a non-empty
history, restore the snapshot at the cursor, then increment the cursor
clamped to the last valid index. -/
def forward (s : MyApp) : MyApp :=
  if s.history.isEmpty then s
  else
    match s.history[s.history_pos]? with
    | none => s
    | some e =>
      MyApp.mk s.history (min (s.history_pos + 1) (s.history.length - 1))
        e.filter e.selected e.dir

/-- `n` consecutive `back` operations. -/
def backN : Nat → MyApp → MyApp
  | 0, s => s
  | k + 1, s => backN k (back s)

/-- A sequence of enter-directory operations, each a `push_dir` with the
target path. -/
def entersAll (s : MyApp) (ps : List String) : MyApp :=
  ps.foldl push_dir s

/-- The key state of one frame that is relevant to navigation
(src/main.rs:84-112 and 141). -/
structure FrameInput where
  arrowUp : Bool
  arrowDown : Bool
  home : Bool
  alt : Bool
  arrowLeft : Bool
  arrowRight : Bool
deriving DecidableEq, Repr

/-- One `MyApp::update` frame (src/main.rs:81-233) in which no Enter
press, click or Escape occurs, so the `push_dir` / open-file / quit rows
are not triggered: key handling (src/main.rs:87-113), the listing
pipeline (src/main.rs:121-139, `none` on its panic), the row counter
`idx` that starts at 0 and is incremented once after the parent row
conditional (src/main.rs:140, 157) and once per displayed entry
(src/main.rs:230), and the final clamp
`self.selected = self.selected.max(0).min(idx - 1)` (src/main.rs:233). -/
def updateFrame (s : MyApp) (inp : FrameInput) (children : List DirChild) :
    Option MyApp :=
  let s1 := if inp.arrowUp then MyApp.mk s.history s.history_pos s.filter (s.selected - 1) s.dir else s
  let s2 := if inp.arrowDown then MyApp.mk s1.history s1.history_pos s1.filter (s1.selected + 1) s1.dir else s1
  let s3 := if inp.home then MyApp.mk s2.history s2.history_pos s2.filter 0 s2.dir else s2
  let s4 := if inp.alt && inp.arrowLeft then back s3 else s3
  let s5 := if inp.alt && inp.arrowRight then forward s4 else s4
  match listDir children with
  | none => none
  | some entries =>
    let shown := entries.filter fun e => (matchFilter s5.filter.toList e.file_name.toList).isSome
    let idx : Int := 1 + shown.length
    some (MyApp.mk s5.history s5.history_pos s5.filter (min (max s5.selected 0) (idx - 1)) s5.dir)

/-- The size of the visible list as the specification defines it: the
synthetic ".." row when the parent is resolvable, followed by the entries
of the current listing that the matcher accepts under the current
filter. -/
def visibleRows (s : MyApp) (parentOk : Bool) (children : List DirChild) :
    Option Nat :=
  (listDir children).map fun entries =>
    (if parentOk then 1 else 0) +
      (entries.filter fun e => (matchFilter s.filter.toList e.file_name.toList).isSome).length

theorem getElem?_append_cons {α : Type} :
    ∀ (t : List α) (x : α) (l : List α), (t ++ x :: l)[t.length]? = some x := by
  intro t x l
  induction t with
  | nil => simp
  | cons a as ih => simpa using ih

theorem take_append_cons {α : Type} :
    ∀ (t : List α) (x : α) (l : List α),
      (t ++ x :: l).take (t.length + 1) = t ++ [x] := by
  intro t x l
  induction t with
  | nil => rfl
  | cons a as ih => simpa using ih

theorem isEmpty_append_cons {α : Type} (t : List α) (x : α) (l : List α) :
    (t ++ x :: l).isEmpty = false := by
  cases t <;> rfl

theorem back_eq (s : MyApp) (e : HistoryElement)
    (h : s.history[s.history_pos]? = some e) :
    back s = MyApp.mk s.history (s.history_pos - 1) e.filter e.selected e.dir := by
  have hne : s.history.isEmpty = false := by
    cases hh : s.history with
    | nil => rw [hh] at h; simp at h
    | cons a as => rfl
  rw [back, hne, h]
  simp

theorem backN_restore :
    ∀ (k : Nat) (s : MyApp), 1 ≤ k → k ≤ s.history_pos + 1 →
      s.history_pos < s.history.length →
      ∃ e, s.history[s.history_pos + 1 - k]? = some e ∧
        (backN k s).dir = e.dir ∧ (backN k s).filter = e.filter ∧
        (backN k s).selected = e.selected := by
  intro k
  induction k with
  | zero => intro s h1; omega
  | succ k ih =>
    intro s _ h2 h3
    have he : s.history[s.history_pos]? = some s.history[s.history_pos] :=
      List.getElem?_eq_getElem h3
    rcases Nat.eq_zero_or_pos k with hk0 | hkpos
    · subst hk0
      refine ⟨s.history[s.history_pos], by simp, ?_⟩
      show (back s).dir = _ ∧ (back s).filter = _ ∧ (back s).selected = _
      rw [back_eq s _ he]
      exact ⟨rfl, rfl, rfl⟩
    · have hstep : backN (k + 1) s = backN k (back s) := rfl
      rw [hstep, back_eq s _ he]
      have h2' : k ≤ (s.history_pos - 1) + 1 := by omega
      have h3' : s.history_pos - 1 < s.history.length := by omega
      obtain ⟨e, hge, hd, hf, hsel⟩ :=
        ih (MyApp.mk s.history (s.history_pos - 1) s.history[s.history_pos].filter
          s.history[s.history_pos].selected s.history[s.history_pos].dir)
          (by omega) h2' h3'
      refine ⟨e, ?_, hd, hf, hsel⟩
      have hidx : s.history_pos - 1 + 1 - k = s.history_pos + 1 - (k + 1) := by omega
      rw [← hidx]
      exact hge

theorem entersAll_spec :
    ∀ (ps : List String) (s : MyApp), ps ≠ [] →
      ∃ rest : List HistoryElement, rest.length = ps.length - 1 ∧
        (entersAll s ps).history =
          s.history.take (s.history_pos + 1) ++
            (HistoryElement.mk s.dir s.filter s.selected :: rest) ∧
        (entersAll s ps).history_pos =
          (s.history.take (s.history_pos + 1)).length + ps.length - 1 ∧
        (entersAll s ps).selected = s.selected := by
  intro ps
  induction ps with
  | nil => intro s h; exact absurd rfl h
  | cons p tl ih =>
    intro s _
    cases tl with
    | nil =>
      refine ⟨[], rfl, by simp [entersAll, push_dir], ?_, rfl⟩
      simp [entersAll, push_dir]
    | cons q tl' =>
      have hstep : entersAll s (p :: q :: tl') = entersAll (push_dir s p) (q :: tl') := rfl
      obtain ⟨rest', hlen, hhist, hpos, hsel⟩ := ih (push_dir s p) (by simp)
      have htake : (push_dir s p).history.take ((push_dir s p).history_pos + 1) =
          s.history.take (s.history_pos + 1) ++ [HistoryElement.mk s.dir s.filter s.selected] := by
        show ((s.history.take (s.history_pos + 1)) ++
            [HistoryElement.mk s.dir s.filter s.selected]).take
            ((s.history.take (s.history_pos + 1)).length + 1) = _
        exact take_append_cons _ _ []
      refine ⟨HistoryElement.mk p "" s.selected :: rest', by simp [hlen], ?_, ?_, ?_⟩
      · rw [hstep, hhist, htake]
        simp [push_dir]
      · rw [hstep, hpos, htake]
        simp
        omega
      · rw [hstep, hsel]
        rfl

theorem push_dir_def (s : MyApp) (p : String) :
    push_dir s p =
      MyApp.mk
        (s.history.take (s.history_pos + 1) ++
          [HistoryElement.mk s.dir s.filter s.selected])
        (s.history.take (s.history_pos + 1)).length "" s.selected p := rfl

theorem forward_eq (s : MyApp) (e : HistoryElement)
    (h : s.history[s.history_pos]? = some e) :
    forward s =
      MyApp.mk s.history (min (s.history_pos + 1) (s.history.length - 1))
        e.filter e.selected e.dir := by
  have hne : s.history.isEmpty = false := by
    cases hh : s.history with
    | nil => rw [hh] at h; simp at h
    | cons a as => rfl
  rw [forward, hne, h]
  simp

/-! ## The claims -/

/-- Claim C1: for every name `n` and filter `f` that is a case-insensitive
subsequence of `n`, the matcher succeeds and the produced run sequence
covers every character of `n` exactly once in original order, so that
concatenating the characters of all runs, Matched and Unmatched, yields
`n` exactly. -/
theorem claim_c1_subseq_match (f n : List Char) (h : CaseSubseq f n) :
    ∃ ps, matchFilter f n = some ps ∧ partsChars ps = n := by
  obtain ⟨ps, hp⟩ := matchFilter_some_of_caseSubseq f n h
  exact ⟨ps, hp, matchFilter_chars f n ps hp⟩

/-- Witness for C1 at the concrete filter "AN" and name "ban". -/
theorem claim_c1_witness :
    CaseSubseq ['A', 'N'] ['b', 'a', 'n'] ∧
      ∃ ps, matchFilter ['A', 'N'] ['b', 'a', 'n'] = some ps ∧
        partsChars ps = ['b', 'a', 'n'] :=
  ⟨by decide, claim_c1_subseq_match ['A', 'N'] ['b', 'a', 'n'] (by decide)⟩

/-- Claim C5 counterexample: for name "banana.txt" and filter "an" the
matcher does not produce the run sequence the claim lists (that sequence
has an extra Unmatched 'a' between the two matches: its characters spell
"baanana.txt", and the claimed match position 3 of 'n' is wrong — the
greedy scan matches 'n' at position 2, immediately after the 'a' at
position 1). -/
theorem claim_c5_counterexample :
    matchFilter "an".toList "banana.txt".toList ≠
      some [Part.NonMatch 'b', Part.Match 'a', Part.NonMatch 'a', Part.Match 'n',
        Part.NonMatch 'a', Part.NonMatch 'n', Part.NonMatch 'a', Part.NonMatch '.',
        Part.NonMatch 't', Part.NonMatch 'x', Part.NonMatch 't'] := by
  decide

/-- Claim C5 (amended): for name "banana.txt" and filter "an" the matcher
succeeds and produces exactly the runs
[U 'b', M 'a', M 'n', U 'a', U 'n', U 'a', U '.', U 't', U 'x', U 't'] —
the 'a' matches at position 1 and the 'n' at position 2 under the greedy
left-to-right scan. -/
theorem claim_c5_actual_runs :
    matchFilter "an".toList "banana.txt".toList =
      some [Part.NonMatch 'b', Part.Match 'a', Part.Match 'n', Part.NonMatch 'a',
        Part.NonMatch 'n', Part.NonMatch 'a', Part.NonMatch '.', Part.NonMatch 't',
        Part.NonMatch 'x', Part.NonMatch 't'] := by
  decide

/-- Claim C9 counterexample: on the two-character name "ab" the empty
filter succeeds but returns two runs (one single-character part per name
character), not exactly one run equal to the whole name. -/
theorem claim_c9_counterexample :
    ∃ ps, matchFilter [] ['a', 'b'] = some ps ∧ ps.length ≠ 1 :=
  ⟨[Part.NonMatch 'a', Part.NonMatch 'b'], by decide, by decide⟩

/-- Claim C9 (amended): for every name `n` the empty filter succeeds,
returning one Unmatched run per character of `n` — no Matched runs — whose
characters concatenate to `n` in its entirety (a single run only when `n`
has at most one character). -/
theorem claim_c9_empty_filter (n : List Char) :
    matchFilter [] n = some (n.map Part.NonMatch) ∧
    matchedChars (n.map Part.NonMatch) = [] ∧
    partsChars (n.map Part.NonMatch) = n :=
  ⟨rfl, matchedChars_map_nonMatch n, partsChars_map_nonMatch n⟩

/-- Claim C10: whenever the matcher succeeds, the Matched runs contain
exactly one character per filter character, case-insensitively equal to
the corresponding filter character in order: the concatenation of the
Matched runs equals the filter up to case. -/
theorem claim_c10_matched_runs (f n : List Char) (ps : List Part)
    (h : matchFilter f n = some ps) :
    (matchedChars ps).length = f.length ∧
    (matchedChars ps).map Char.toUpper = f.map Char.toUpper := by
  have hm := matchFilter_matched f n ps h
  refine ⟨?_, hm⟩
  have := congrArg List.length hm
  simpa using this

/-- Witness for C10 at the concrete filter "an" and name "ban". -/
theorem claim_c10_witness :
    (matchedChars [Part.NonMatch 'b', Part.Match 'a', Part.Match 'n']).length =
      ['a', 'n'].length ∧
    (matchedChars [Part.NonMatch 'b', Part.Match 'a', Part.Match 'n']).map Char.toUpper =
      ['a', 'n'].map Char.toUpper :=
  claim_c10_matched_runs ['a', 'n'] ['b', 'a', 'n']
    [Part.NonMatch 'b', Part.Match 'a', Part.Match 'n'] (by decide)

/-- Claim C6, evaluated at the failing input: a child whose metadata read
fails is silently skipped and the listing proceeds (first conjunct,
matching the claim), but a child whose access time and modify time are
both unavailable makes the whole listing abort — the recency-key
`.unwrap()` of src/main.rs:137 panics — instead of being included with a
fallback key (second conjunct, contradicting the claim: even the healthy
entry is lost). -/
theorem claim_c6_lister_eval :
    listDir [DirChild.mk "x" "/x" none,
        DirChild.mk "g" "/g" (some (Metadata.mk (some 5) none false))] =
      some [Entry.mk "g" "/g" (Metadata.mk (some 5) none false)] ∧
    listDir [DirChild.mk "g" "/g" (some (Metadata.mk (some 5) none false)),
        DirChild.mk "y" "/y" (some (Metadata.mk none none false))] = none := by
  constructor <;> rfl

/-- Claim C7: a successful listing is sorted descending by recency key
(access time, falling back to modify time), and the sort is stable: the
entries carrying any fixed key appear in the same relative order as in
the input enumeration, so repeated calls on unchanged input keep equal-key
entries in the same relative order. -/
theorem claim_c7_sorted_stable (children : List DirChild) (l : List Entry)
    (h : listDir children = some l) :
    l.Pairwise (fun a b => keyD b ≤ keyD a) ∧
    ∀ k : Nat, l.filter (fun e => keyD e == k) =
      (listEntries children).filter (fun e => keyD e == k) := by
  unfold listDir sortEntries at h
  cases hk : keyedEntries (listEntries children) with
  | none => rw [hk] at h; simp at h
  | some ks =>
    rw [hk] at h
    simp only [Option.map_some', Option.some.injEq] at h
    obtain ⟨hmap, hinv⟩ := keyedEntries_spec _ ks hk
    subst h
    constructor
    · rw [List.pairwise_map]
      refine List.Pairwise.imp_of_mem ?_ (sortDesc_pairwise ks)
      intro a b ha hb hab
      have ha' := hinv a ((mem_sortDesc a ks).mp ha)
      have hb' := hinv b ((mem_sortDesc b ks).mp hb)
      omega
    · intro k
      calc ((sortDesc ks).map Prod.snd).filter (fun e => keyD e == k)
          = ((sortDesc ks).filter ((fun e => keyD e == k) ∘ Prod.snd)).map Prod.snd := by
            rw [List.filter_map]
        _ = ((sortDesc ks).filter (fun p => p.1 == k)).map Prod.snd := by
            apply congrArg
            apply List.filter_congr
            intro p hp
            have hpk := hinv p ((mem_sortDesc p ks).mp hp)
            simp [Function.comp, hpk]
        _ = (ks.filter (fun p => p.1 == k)).map Prod.snd := by rw [filter_sortDesc]
        _ = (ks.filter ((fun e => keyD e == k) ∘ Prod.snd)).map Prod.snd := by
            apply congrArg
            apply List.filter_congr
            intro p hp
            have hpk := hinv p hp
            simp [Function.comp, hpk]
        _ = (ks.map Prod.snd).filter (fun e => keyD e == k) := by rw [List.filter_map]
        _ = (listEntries children).filter (fun e => keyD e == k) := by rw [hmap]

/-- Witness for C7 at a concrete two-child directory listed out of recency
order. -/
theorem claim_c7_witness :
    ([Entry.mk "new" "/n" (Metadata.mk (some 9) none true),
        Entry.mk "old" "/o" (Metadata.mk (some 1) none false)].Pairwise
      (fun a b => keyD b ≤ keyD a)) ∧
    [Entry.mk "new" "/n" (Metadata.mk (some 9) none true),
        Entry.mk "old" "/o" (Metadata.mk (some 1) none false)].filter
      (fun e => keyD e == 9) =
      (listEntries [DirChild.mk "old" "/o" (some (Metadata.mk (some 1) none false)),
          DirChild.mk "new" "/n" (some (Metadata.mk (some 9) none true))]).filter
        (fun e => keyD e == 9) :=
  ⟨(claim_c7_sorted_stable
      [DirChild.mk "old" "/o" (some (Metadata.mk (some 1) none false)),
        DirChild.mk "new" "/n" (some (Metadata.mk (some 9) none true))]
      [Entry.mk "new" "/n" (Metadata.mk (some 9) none true),
        Entry.mk "old" "/o" (Metadata.mk (some 1) none false)] (by decide)).1,
    (claim_c7_sorted_stable
      [DirChild.mk "old" "/o" (some (Metadata.mk (some 1) none false)),
        DirChild.mk "new" "/n" (some (Metadata.mk (some 9) none true))]
      [Entry.mk "new" "/n" (Metadata.mk (some 9) none true),
        Entry.mk "old" "/o" (Metadata.mk (some 1) none false)] (by decide)).2 9⟩

/-- Claim C2, evaluated at the failing input: in a directory with no
resolvable parent (the filesystem root) holding one child that matches the
empty filter, a single ArrowDown frame ends with `selected = 1` while the
visible list has exactly 1 row — the clamp
`self.selected.max(0).min(idx - 1)` (src/main.rs:233) uses an `idx` that
counted a phantom row because `idx += 1` (src/main.rs:157) runs even when
no ".." row was shown, so the clamped selection is out of the visible
list's bounds. -/
theorem claim_c2_clamp_out_of_bounds :
    ∃ s n,
      updateFrame (initApp "/") (FrameInput.mk false true false false false false)
          [DirChild.mk "a" "/a" (some (Metadata.mk (some 1) none false))] = some s ∧
      visibleRows s false [DirChild.mk "a" "/a" (some (Metadata.mk (some 1) none false))] =
        some n ∧
      0 < n ∧ ¬(s.selected < (n : Int)) := by
  refine ⟨MyApp.mk [] 0 "" 1 "/", 1, ?_, ?_, ?_, ?_⟩ <;> decide

/-- Claim C3: performing any non-empty sequence of enter-directory
operations followed by the same number of back operations restores the
(directory, filter, selection) triple that held immediately before the
first enter. -/
theorem claim_c3_round_trip (s : MyApp) (ps : List String) (hne : ps ≠ []) :
    (backN ps.length (entersAll s ps)).dir = s.dir ∧
    (backN ps.length (entersAll s ps)).filter = s.filter ∧
    (backN ps.length (entersAll s ps)).selected = s.selected := by
  obtain ⟨rest, hlen, hhist, hpos, _⟩ := entersAll_spec ps s hne
  have hn : 1 ≤ ps.length := List.length_pos.mpr hne
  have hulen : (entersAll s ps).history.length =
      (s.history.take (s.history_pos + 1)).length + ps.length := by
    rw [hhist]
    simp [hlen]
    omega
  have h2 : ps.length ≤ (entersAll s ps).history_pos + 1 := by
    rw [hpos]; omega
  have h3 : (entersAll s ps).history_pos < (entersAll s ps).history.length := by
    rw [hpos, hulen]; omega
  obtain ⟨e, hge, hd, hf, hsel⟩ := backN_restore ps.length (entersAll s ps) hn h2 h3
  have hidx : (entersAll s ps).history_pos + 1 - ps.length =
      (s.history.take (s.history_pos + 1)).length := by
    rw [hpos]; omega
  rw [hidx, hhist, getElem?_append_cons] at hge
  have he : e = HistoryElement.mk s.dir s.filter s.selected := (Option.some.inj hge).symm
  subst he
  exact ⟨hd, hf, hsel⟩

/-- Witness for C3: entering two directories from a fresh state and going
back twice restores the initial triple. -/
theorem claim_c3_witness :
    (backN 2 (entersAll (initApp "R") ["A", "B"])).dir = (initApp "R").dir ∧
    (backN 2 (entersAll (initApp "R") ["A", "B"])).filter = (initApp "R").filter ∧
    (backN 2 (entersAll (initApp "R") ["A", "B"])).selected = (initApp "R").selected :=
  claim_c3_round_trip (initApp "R") ["A", "B"] (by decide)

/-- Claim C4 counterexample: after enter(A), enter(B), back(), enter(C)
from a fresh state at "R", `forward()` does not leave the state unchanged
— it changes the current directory from C back to A. -/
theorem claim_c4_counterexample :
    forward (push_dir (back (push_dir (push_dir (initApp "R") "A") "B")) "C") ≠
      push_dir (back (push_dir (push_dir (initApp "R") "A") "B")) "C" := by
  decide

/-- Claim C4 (amended): after enter(A), enter(B), back(), enter(C), the
snapshot for B has indeed been discarded by the push and is unreachable —
the history holds exactly the pre-enter-A snapshot and the pre-enter-C
snapshot (A, empty filter, carried selection) — but a subsequent
`forward()` is not a no-op: it re-applies the snapshot at the cursor (the
pre-enter-C state, directory A and empty filter) while leaving the cursor
at the end. -/
theorem claim_c4_branch_discard (s : MyApp) (a b c : String) :
    (push_dir (back (push_dir (push_dir s a) b)) c).history =
      s.history.take (s.history_pos + 1) ++
        [HistoryElement.mk s.dir s.filter s.selected,
          HistoryElement.mk a "" s.selected] ∧
    forward (push_dir (back (push_dir (push_dir s a) b)) c) =
      MyApp.mk
        (s.history.take (s.history_pos + 1) ++
          [HistoryElement.mk s.dir s.filter s.selected,
            HistoryElement.mk a "" s.selected])
        ((s.history.take (s.history_pos + 1)).length + 1) "" s.selected a := by
  have h2 : push_dir (push_dir s a) b =
      MyApp.mk
        (s.history.take (s.history_pos + 1) ++
          [HistoryElement.mk s.dir s.filter s.selected,
            HistoryElement.mk a "" s.selected])
        ((s.history.take (s.history_pos + 1)).length + 1) "" s.selected b := by
    rw [push_dir_def s a, push_dir_def, take_append_cons]
    simp
  have hg3 : (s.history.take (s.history_pos + 1) ++
        [HistoryElement.mk s.dir s.filter s.selected,
          HistoryElement.mk a "" s.selected])[(s.history.take (s.history_pos + 1)).length + 1]? =
      some (HistoryElement.mk a "" s.selected) := by
    have := getElem?_append_cons
      (s.history.take (s.history_pos + 1) ++ [HistoryElement.mk s.dir s.filter s.selected])
      (HistoryElement.mk a "" s.selected) []
    simpa using this
  have h3 : back (push_dir (push_dir s a) b) =
      MyApp.mk
        (s.history.take (s.history_pos + 1) ++
          [HistoryElement.mk s.dir s.filter s.selected,
            HistoryElement.mk a "" s.selected])
        (s.history.take (s.history_pos + 1)).length "" s.selected a := by
    rw [h2, back_eq _ _ hg3]
    simp
  have h4 : push_dir (back (push_dir (push_dir s a) b)) c =
      MyApp.mk
        (s.history.take (s.history_pos + 1) ++
          [HistoryElement.mk s.dir s.filter s.selected,
            HistoryElement.mk a "" s.selected])
        ((s.history.take (s.history_pos + 1)).length + 1) "" s.selected c := by
    rw [h3, push_dir_def, take_append_cons]
    simp
  refine ⟨by rw [h4], ?_⟩
  rw [h4, forward_eq _ _ hg3]
  simp

/-- Claim C8 counterexample: with a one-snapshot history and the cursor at
the start boundary, `back()` does not leave the state unchanged — it
overwrites (dir, filter, selected) with the boundary snapshot. -/
theorem claim_c8_counterexample :
    back (MyApp.mk [HistoryElement.mk "a" "f" 5] 0 "" 0 "b") ≠
      MyApp.mk [HistoryElement.mk "a" "f" 5] 0 "" 0 "b" := by
  decide

/-- Claim C8 (amended): with an empty history, `back()` and `forward()`
are complete no-ops.  With a non-empty history, `back()` at the start
boundary and `forward()` at the end boundary leave the history cursor
unchanged but re-apply the snapshot at the cursor to
(dir, filter, selected): the navigation state is unchanged only when it
already equals that snapshot. -/
theorem claim_c8_boundary (s : MyApp) :
    (s.history = [] → back s = s ∧ forward s = s) ∧
    (∀ e, s.history_pos = 0 → s.history[0]? = some e →
      back s = MyApp.mk s.history 0 e.filter e.selected e.dir) ∧
    (∀ e, s.history_pos = s.history.length - 1 → s.history[s.history_pos]? = some e →
      forward s = MyApp.mk s.history s.history_pos e.filter e.selected e.dir) := by
  refine ⟨?_, ?_, ?_⟩
  · intro h
    constructor <;> simp [back, forward, h]
  · intro e hp hg
    rw [← hp] at hg
    rw [back_eq s e hg, hp]
  · intro e hp hg
    have hlt : s.history_pos < s.history.length := by
      rcases List.getElem?_eq_some.mp hg with ⟨hl, _⟩
      exact hl
    rw [forward_eq s e hg]
    have : min (s.history_pos + 1) (s.history.length - 1) = s.history_pos := by
      omega
    rw [this]

/-- Witness for C8 (amended) at concrete boundary states. -/
theorem claim_c8_boundary_witness :
    (back (MyApp.mk [] 0 "x" 3 "r") = MyApp.mk [] 0 "x" 3 "r") ∧
    (back (MyApp.mk [HistoryElement.mk "a" "f" 5] 0 "" 0 "b") =
      MyApp.mk [HistoryElement.mk "a" "f" 5] 0 "f" 5 "a") ∧
    (forward (MyApp.mk [HistoryElement.mk "a" "f" 5] 0 "" 0 "b") =
      MyApp.mk [HistoryElement.mk "a" "f" 5] 0 "f" 5 "a") :=
  ⟨((claim_c8_boundary (MyApp.mk [] 0 "x" 3 "r")).1 rfl).1,
    (claim_c8_boundary (MyApp.mk [HistoryElement.mk "a" "f" 5] 0 "" 0 "b")).2.1
      (HistoryElement.mk "a" "f" 5) rfl rfl,
    (claim_c8_boundary (MyApp.mk [HistoryElement.mk "a" "f" 5] 0 "" 0 "b")).2.2
      (HistoryElement.mk "a" "f" 5) rfl rfl⟩

end Qfm
